import Mathlib

/-!
Shallow embedding of the Bayesian market-priors reconciliation engine of the
PLSite repository (display-layer implementation in `src/js/papers.js` and
`src/js/priors.js`).

JavaScript numbers that have passed through `toNumber` (from `ui_utils.js`)
are either a finite double or `null`; we model such values as `Option ℚ`
(`none` = `null` / non-finite), and finite numbers as exact rationals, so that
the arithmetic identities the specification asserts can be stated exactly.
-/

namespace PLSite

/-- One raw bracket range as delivered by a venue:
`{ lower: number|null, upper: number|null, prob: number|null }` after each
field has passed through `toNumber`. -/
structure RawRange where
  lower : Option ℚ
  upper : Option ℚ
  prob : Option ℚ
  deriving DecidableEq, Repr

/-- A cleaned range produced by `normalizeDistribution`: the probability is a
finite number. -/
structure CleanRange where
  lower : Option ℚ
  upper : Option ℚ
  prob : ℚ
  deriving DecidableEq, Repr

/-- A bin of the canonical grid: `{ lower: number|null, upper: number|null }`. -/
structure Bin where
  lower : Option ℚ
  upper : Option ℚ
  deriving DecidableEq, Repr

namespace Papers

/-- papers.js `normalizeProb` (line 594): a non-finite value becomes `null`;
a value strictly greater than 1.5 is read as a percentage and divided by 100. -/
def normalizeProb (value : Option ℚ) : Option ℚ :=
  value.map fun n => if (3/2 : ℚ) < n then n / 100 else n

/-- papers.js `clamp` (line 600). -/
def clamp (value mn mx : ℚ) : ℚ := min (max value mn) mx

/-- The `cleaned` intermediate of papers.js `normalizeDistribution`
(lines 613-619): entries whose probability is not finite are dropped. -/
def cleanRanges (ranges : List RawRange) : List CleanRange :=
  ranges.filterMap fun r =>
    (normalizeProb r.prob).map fun p => CleanRange.mk r.lower r.upper p

/-- papers.js `normalizeDistribution` (lines 612-628): drop entries whose
probability is not finite, then divide by the total when it is positive. -/
def normalizeDistribution (ranges : List RawRange) : List CleanRange :=
  let cleaned : List CleanRange := cleanRanges ranges
  let total : ℚ := (cleaned.map (·.prob)).sum
  if 0 < total then cleaned.map fun r => { r with prob := r.prob / total }
  else cleaned

/-- papers.js `expandRange` (lines 732-736): substitute synthetic bounds for
open (null) ends. -/
def expandRange (lower upper : Option ℚ) (minBound maxBound step : ℚ) : ℚ × ℚ :=
  (lower.getD (minBound - step), upper.getD (maxBound + step))

/-- Overlap length between two closed intervals, as computed inside
`aggregateRangesToStandard` (line 756). -/
def overlapLen (src dst : ℚ × ℚ) : ℚ :=
  max 0 (min src.2 dst.2 - max src.1 dst.1)

/-- Mass one cleaned range contributes to one canonical bin in the loop body of
`aggregateRangesToStandard` (lines 748-758); the `continue` branches contribute
nothing. -/
def rangeMass (r : CleanRange) (bin : Bin) (minBound maxBound step : ℚ) : ℚ :=
  if r.prob ≤ 0 then 0
  else
    let src := expandRange r.lower r.upper minBound maxBound step
    let width := src.2 - src.1
    if 0 < width then
      let dst := expandRange bin.lower bin.upper minBound maxBound step
      let overlap := overlapLen src dst
      if 0 < overlap then r.prob * (overlap / width) else 0
    else 0

/-- papers.js `aggregateRangesToStandard` line 742: first canonical bin with a
finite lower bound, defaulting to 0. -/
def aggMinBound (standardBins : List Bin) : ℚ :=
  ((standardBins.find? fun b => b.lower.isSome).bind (·.lower)).getD 0

/-- papers.js `aggregateRangesToStandard` lines 743-746: last canonical bin
with a finite upper bound, defaulting to `minBound + step`. -/
def aggMaxBound (standardBins : List Bin) (minBound step : ℚ) : ℚ :=
  ((standardBins.reverse.find? fun b => b.upper.isSome).bind (·.upper)).getD
    (minBound + step)

/-- The per-bin accumulated totals of `aggregateRangesToStandard`
(lines 747-759).  The source accumulates range-by-range into a mutable array;
in exact rational arithmetic this equals the per-bin sum of `rangeMass`. -/
def aggregateTotals (clean : List CleanRange) (standardBins : List Bin)
    (minBound maxBound step : ℚ) : List ℚ :=
  standardBins.map fun bin =>
    (clean.map fun r => rangeMass r bin minBound maxBound step).sum

/-- papers.js `aggregateRangesToStandard` (lines 738-765). -/
def aggregateRangesToStandard (ranges : List RawRange) (standardBins : List Bin)
    (step : ℚ) : List ℚ :=
  let clean := normalizeDistribution ranges
  if standardBins.isEmpty || clean.isEmpty then []
  else
    let minBound := aggMinBound standardBins
    let maxBound := aggMaxBound standardBins minBound step
    let totals := aggregateTotals clean standardBins minBound maxBound step
    let totalProb := totals.sum
    if 0 < totalProb then totals.map (· / totalProb) else totals

/-- The positive widths of the closed bins, in the order scanned by
`estimateBinWidth` (lines 768-770). -/
def closedWidths (bins : List Bin) : List ℚ :=
  bins.filterMap fun b =>
    match b.lower, b.upper with
    | some l, some u => if 0 < u - l then some (u - l) else none
    | _, _ => none

/-- papers.js `estimateBinWidth` (lines 767-775): median of the positive
closed-bin widths, defaulting to the literal 50000 when there are none. -/
def estimateBinWidth (bins : List Bin) : ℚ :=
  let widths := closedWidths bins
  if widths.isEmpty then 50000
  else
    let sorted := widths.mergeSort fun a b => decide (a ≤ b)
    let mid := sorted.length / 2
    if sorted.length % 2 = 1 then sorted.getD mid 0
    else (sorted.getD (mid - 1) 0 + sorted.getD mid 0) / 2

/-- papers.js `midpointForBin` (lines 777-784). -/
def midpointForBin (lower upper : Option ℚ) (fallbackWidth : ℚ) : ℚ :=
  match lower, upper with
  | some l, some u => (l + u) / 2
  | none, some u => u - fallbackWidth / 2
  | some l, none => l + fallbackWidth / 2
  | none, none => 0

end Papers

/-! Combination machinery shared verbatim by papers.js `combineDistributions`
(lines 786-814) and priors.js `combineDistributions` (lines 141-169): a
`Map` keyed by `rangeKey` holding one entry per distinct `(lower, upper)`
pair, then per-entry averaging and renormalization, then a sort by
`sortRanges`.  JavaScript `Map` preserves insertion order and `set` on an
existing key updates in place, which the list upsert below reproduces. -/

/-- One entry of the combination map:
`{ lower, upper, kalshi: number|null, polymarket: number|null }`. -/
structure CombEntry where
  lower : Option ℚ
  upper : Option ℚ
  kalshi : Option ℚ
  polymarket : Option ℚ
  deriving DecidableEq, Repr

/-- The `rangeKey` of an entry.  The JS key is the string
`lower|upper` with `null` printed as the empty string, which is injective on
`(Option ℚ) × (Option ℚ)` pairs, so the pair itself serves as the key. -/
def entryKey (e : CombEntry) : Option ℚ × Option ℚ := (e.lower, e.upper)

/-- The assignment `existing[sourceKey] = prob` with `sourceKey` either
`kalshi` or `polymarket`. -/
def setVenueProb (isKalshi : Bool) (e : CombEntry) (p : ℚ) : CombEntry :=
  if isKalshi then { e with kalshi := some p } else { e with polymarket := some p }

/-- The `ingest` closure body: upsert each cleaned range into the map. -/
def ingestClean (isKalshi : Bool) (ranges : List CleanRange)
    (acc : List CombEntry) : List CombEntry :=
  ranges.foldl (fun acc r =>
    let key := (r.lower, r.upper)
    if acc.any fun e => entryKey e = key then
      acc.map fun e => if entryKey e = key then setVenueProb isKalshi e r.prob else e
    else acc ++ [setVenueProb isKalshi (CombEntry.mk r.lower r.upper none none) r.prob])
    acc

/-- The `combinedRaw` field: mean of the finite per-venue probabilities of an entry,
`null` when neither venue quoted it. -/
def combinedRawOf (e : CombEntry) : Option ℚ :=
  let sourcesList := [e.kalshi, e.polymarket].filterMap id
  if sourcesList.isEmpty then none
  else some (sourcesList.sum / (sourcesList.length : ℚ))

/-- A finished combined entry (after the `combined` field is filled in). -/
structure CombinedEntry where
  lower : Option ℚ
  upper : Option ℚ
  kalshi : Option ℚ
  polymarket : Option ℚ
  combinedRaw : Option ℚ
  combined : ℚ
  deriving DecidableEq, Repr

/-- The `sortRanges` lower key: `Number.isFinite(lower) ? lower : -Infinity`. -/
def lowerKey (v : Option ℚ) : WithBot ℚ := v.elim ⊥ (↑·)

/-- The `sortRanges` upper key: `Number.isFinite(upper) ? upper : Infinity`. -/
def upperKey (v : Option ℚ) : WithTop ℚ := v.elim ⊤ (↑·)

/-- The stable-sort ordering induced by the `sortRanges` comparator
(papers.js lines 632-639, priors.js lines 131-139): `a` may precede `b` iff
the comparator returns a non-positive number. -/
def combinedSortLE (a b : CombinedEntry) : Bool :=
  decide (lowerKey a.lower < lowerKey b.lower ∨
    (lowerKey a.lower = lowerKey b.lower ∧ upperKey a.upper ≤ upperKey b.upper))

/-- The shared tail of both `combineDistributions` implementations: attach
`combinedRaw`, renormalize by the total when positive (else 0), sort by
`sortRanges`. -/
def finishCombine (m : List CombEntry) : List CombinedEntry :=
  let entries := m.map fun e => (e, combinedRawOf e)
  let combinedTotal : ℚ := (entries.map fun p => p.2.getD 0).sum
  (entries.map fun p =>
    { lower := p.1.lower, upper := p.1.upper, kalshi := p.1.kalshi,
      polymarket := p.1.polymarket, combinedRaw := p.2,
      combined := if 0 < combinedTotal ∧ p.2.isSome then p.2.getD 0 / combinedTotal
        else 0 }).mergeSort combinedSortLE

namespace Papers

/-- The `sources` object of a snapshot: per-venue raw range lists
(`sources?.kalshi || []` and `sources?.polymarket || []` are the only venues
read). -/
structure Sources where
  kalshi : List RawRange
  polymarket : List RawRange
  deriving DecidableEq, Repr

/-- papers.js `combineDistributions` (lines 786-814): each venue's list is
cleaned by `normalizeDistribution` before ingestion. -/
def combineDistributions (sources : Sources) : List CombinedEntry :=
  finishCombine
    (ingestClean false (normalizeDistribution sources.polymarket)
      (ingestClean true (normalizeDistribution sources.kalshi) []))

/-- One record of a stored `posterior.bins` array, and equally one output bin
of `getPosteriorBins`; every numeric field has passed `toNumber`. -/
structure PBin where
  lower : Option ℚ
  upper : Option ℚ
  midpoint : Option ℚ
  mean : Option ℚ
  p10 : Option ℚ
  p90 : Option ℚ
  deriving DecidableEq, Repr

/-- Per-venue volume multipliers, `posterior.model.volume_weights`. -/
structure VolumeWeights where
  kalshi : ℚ
  polymarket : ℚ
  deriving DecidableEq, Repr

/-- The `posterior.model` block of a stored snapshot. -/
structure PosteriorModel where
  volume_weights : Option VolumeWeights
  deriving DecidableEq, Repr

/-- The precomputed `posterior` block of a stored snapshot. -/
structure Posterior where
  bins : List PBin
  model : Option PosteriorModel
  deriving DecidableEq, Repr

/-- The `source_meta` block: per-venue notional volume. -/
structure SourceMeta where
  kalshiVolume : Option ℚ
  polymarketVolume : Option ℚ
  deriving DecidableEq, Repr

/-- A stored snapshot record.  `as_of` is the parsed timestamp
(`parseDate(...)?.getTime()`): `none` when the raw string does not parse. -/
structure Snapshot where
  as_of : Option ℚ
  sources : Sources
  source_meta : SourceMeta
  posterior : Option Posterior
  deriving DecidableEq, Repr

/-- papers.js `getPosterior` (lines 816-820): the stored posterior counts only
when it has a non-empty `bins` array. -/
def getPosterior (snapshot : Snapshot) : Option Posterior :=
  match snapshot.posterior with
  | some p => if p.bins.isEmpty then none else some p
  | none => none

/-- papers.js `getPosteriorBins` (lines 822-844): echo the stored posterior
bins when present, otherwise fall back to the combined distribution with
`p10 = p90 = null`. -/
def getPosteriorBins (snapshot : Snapshot) (bins : List Bin) : List PBin :=
  match getPosterior snapshot with
  | some posterior => posterior.bins.map fun b =>
      PBin.mk b.lower b.upper b.midpoint b.mean b.p10 b.p90
  | none =>
    let combined := combineDistributions snapshot.sources
    let fallbackWidth := estimateBinWidth bins
    combined.map fun entry =>
      PBin.mk entry.lower entry.upper
        (some (midpointForBin entry.lower entry.upper fallbackWidth))
        (some entry.combined) none none

/-- papers.js `computeVolumeWeights` (lines 978-989), parameterized by the
`Math.log1p` primitive (a transcendental function; every property proved below
assumes only that it is positive on positive arguments, which `Math.log1p`
satisfies for every positive finite double). -/
def computeVolumeWeights (log1p : ℚ → ℚ) (kalshiVol polymarketVol : Option ℚ) :
    Option VolumeWeights :=
  match kalshiVol, polymarketVol with
  | some kv, some pv =>
    if kv ≤ 0 ∨ pv ≤ 0 then none
    else
      let rawKalshi := log1p kv
      let rawPoly := log1p pv
      let mean := (rawKalshi + rawPoly) / 2
      if ¬ 0 < mean then none
      else some (VolumeWeights.mk (clamp (rawKalshi / mean) (1/2) 3)
        (clamp (rawPoly / mean) (1/2) 3))
  | _, _ => none

/-- The record returned by `getBlendWeightData`. -/
structure BlendWeightData where
  weights : VolumeWeights
  kalshiVol : Option ℚ
  polyVol : Option ℚ
  deriving DecidableEq, Repr

/-- papers.js `getBlendWeightData` (lines 991-999): stored
`posterior.model.volume_weights` win; otherwise the weights are recomputed
from the `source_meta` volumes, and `null` propagates when that fails. -/
def getBlendWeightData (log1p : ℚ → ℚ) (snapshot : Option Snapshot) :
    Option BlendWeightData :=
  match snapshot with
  | none => none
  | some snap =>
    let kalshiVol := snap.source_meta.kalshiVolume
    let polyVol := snap.source_meta.polymarketVolume
    let weights := match snap.posterior.bind fun p => p.model.bind (·.volume_weights) with
      | some w => some w
      | none => computeVolumeWeights log1p kalshiVol polyVol
    match weights with
    | none => none
    | some w => some (BlendWeightData.mk w kalshiVol polyVol)

/-- papers.js line 1352 in `buildUncertaintySeriesFromHistory`:
`const weight = toNumber(weightMap?.[key]) || 1` — the multiplier actually
applied to a venue's series; a missing weight map (or a zero entry) falls back
to 1. -/
def blendWeightFor (weightMap : Option VolumeWeights) (isKalshi : Bool) : ℚ :=
  match weightMap.map fun m => if isKalshi then m.kalshi else m.polymarket with
  | none => 1
  | some v => if v = 0 then 1 else v

/-- papers.js `pickLatestSnapshot` (lines 1525-1532): unparseable timestamps
map to `-Infinity` and are filtered out as non-finite; the rest are sorted by
descending timestamp and the head is served. -/
def pickLatestSnapshot (snapshots : List Snapshot) : Option Snapshot :=
  let sorted := ((snapshots.filterMap fun snap => snap.as_of.map fun ts => (snap, ts)).mergeSort
    fun a b => decide (b.2 ≤ a.2)).map (·.1)
  sorted.head?

/-- papers.js `buildExpectationSeries` (lines 1242-1245): the ordered snapshot
list driving the time series — snapshots with unparseable `as_of` are dropped
and the rest sorted by ascending timestamp.  The remainder of the function
consumes this list in order. -/
def expectationSeriesOrder (snapshots : List Snapshot) : List (Snapshot × ℚ) :=
  (snapshots.filterMap fun snap => snap.as_of.map fun ts => (snap, ts)).mergeSort
    fun a b => decide (a.2 ≤ b.2)

end Papers

namespace Priors

/-- One raw bracket range as read by priors.js (lines 111-118): it also carries
optional `volume` and `midpoint` fields. -/
structure PRange where
  lower : Option ℚ
  upper : Option ℚ
  prob : Option ℚ
  volume : Option ℚ
  midpoint : Option ℚ
  deriving DecidableEq, Repr

/-- A cleaned range of priors.js `normalizeDistribution`. -/
structure PClean where
  lower : Option ℚ
  upper : Option ℚ
  prob : ℚ
  volume : Option ℚ
  midpoint : Option ℚ
  deriving DecidableEq, Repr

/-- priors.js `normalizeProb` (lines 104-108); same computation as the
papers.js function of the same name. -/
def normalizeProb (value : Option ℚ) : Option ℚ :=
  value.map fun n => if (3/2 : ℚ) < n then n / 100 else n

/-- The `cleaned` intermediate of priors.js `normalizeDistribution`
(lines 111-119). -/
def cleanPRanges (ranges : List PRange) : List PClean :=
  ranges.filterMap fun r =>
    (normalizeProb r.prob).map fun p =>
      PClean.mk r.lower r.upper p r.volume r.midpoint

/-- priors.js `normalizeDistribution` (lines 110-128). -/
def normalizeDistribution (ranges : List PRange) : List PClean :=
  let cleaned : List PClean := cleanPRanges ranges
  let total : ℚ := (cleaned.map (·.prob)).sum
  if 0 < total then cleaned.map fun r => { r with prob := r.prob / total }
  else cleaned

/-- priors.js `combineDistributions` (lines 141-169): unlike the papers.js
version it receives the two already-normalized lists. -/
def combineDistributions (kalshi polymarket : List PClean) : List CombinedEntry :=
  finishCombine
    (ingestClean false (polymarket.map fun r => CleanRange.mk r.lower r.upper r.prob)
      (ingestClean true (kalshi.map fun r => CleanRange.mk r.lower r.upper r.prob) []))

/-- A priors.js snapshot: `as_of` is the parsed timestamp (`none` when
unparseable) and `sources` holds the two venues' raw range lists. -/
structure PSnapshot where
  as_of : Option ℚ
  kalshi : List PRange
  polymarket : List PRange
  deriving DecidableEq, Repr

/-- priors.js `pickLatestSnapshot` (lines 209-216): ascending sort, last
element. -/
def pickLatestSnapshot (snapshots : List PSnapshot) : Option PSnapshot :=
  let sorted := (snapshots.filterMap fun snap => snap.as_of.map fun ts => (snap, ts)).mergeSort
    fun a b => decide (a.2 ≤ b.2)
  (sorted.map (·.1)).getLast?

/-- The record returned by priors.js `buildCombinedSnapshot` (lines 233-239). -/
structure CombinedSnapshot where
  kalshi : List PClean
  polymarket : List PClean
  combined : List CombinedEntry
  deriving DecidableEq, Repr

/-- priors.js `buildCombinedSnapshot` (lines 233-239). -/
def buildCombinedSnapshot (snapshot : PSnapshot) : CombinedSnapshot :=
  let kalshi := normalizeDistribution snapshot.kalshi
  let polymarket := normalizeDistribution snapshot.polymarket
  CombinedSnapshot.mk kalshi polymarket (combineDistributions kalshi polymarket)

/-- Outcome of the `renderEvent` entry checks (priors.js lines 470-489): a
snapshot whose combined venue lists are both empty is rejected before any
table, chart or metric is produced. -/
inductive RenderOutcome where
  | noSnapshot : RenderOutcome
  | noBracketData : RenderOutcome
  | rendered : List CombinedEntry → RenderOutcome
  deriving DecidableEq, Repr

/-- priors.js `renderEvent` (lines 470-489), reduced to the decision of
whether anything is rendered for the event and from which combined
distribution. -/
def renderEventOutcome (snapshots : List PSnapshot) : RenderOutcome :=
  match pickLatestSnapshot snapshots with
  | none => RenderOutcome.noSnapshot
  | some snap =>
    let c := buildCombinedSnapshot snap
    if c.kalshi.isEmpty && c.polymarket.isEmpty then RenderOutcome.noBracketData
    else RenderOutcome.rendered c.combined

end Priors

/-- Median of a list of rationals, written from the specification's wording
("the median of the widths of that snapshot's closed bins") for comparison
with the source's `estimateBinWidth`: sort ascending; for odd length take the
middle element, for even length the mean of the two middle elements. -/
def medianSpec (l : List ℚ) : ℚ :=
  let sorted := l.mergeSort fun a b => decide (a ≤ b)
  let mid := sorted.length / 2
  if sorted.length % 2 = 1 then sorted.getD mid 0
  else (sorted.getD (mid - 1) 0 + sorted.getD mid 0) / 2

/-! Helper lemmas. -/

theorem sum_map_div (l : List ℚ) (c : ℚ) : (l.map (· / c)).sum = l.sum / c := by
  induction l with
  | nil => simp
  | cons x xs ih => simp [ih, add_div]

theorem rangeMass_nonneg (r : CleanRange) (bin : Bin) (minBound maxBound step : ℚ) :
    0 ≤ Papers.rangeMass r bin minBound maxBound step := by
  simp only [Papers.rangeMass]
  split
  · exact le_refl 0
  · split
    · split
      · rename_i hp hw hov
        have h0 : 0 < r.prob := lt_of_not_le hp
        positivity
      · exact le_refl 0
    · exact le_refl 0

/-! Theorems for the claims. -/

/-- C10: a probability strictly above 1.5 is read as a percentage and divided
by 100, values at or below 1.5 are taken as probabilities, a non-finite value
becomes null, and a range whose probability is null is dropped from the
distribution (dropping it anywhere in the list leaves `normalizeDistribution`
unchanged). -/
theorem normalizeProb_semantics :
    (∀ q : ℚ, 3/2 < q → Papers.normalizeProb (some q) = some (q / 100)) ∧
    (∀ q : ℚ, q ≤ 3/2 → Papers.normalizeProb (some q) = some q) ∧
    Papers.normalizeProb none = none ∧
    (∀ (l₁ l₂ : List RawRange) (lo up : Option ℚ),
      Papers.normalizeDistribution (l₁ ++ RawRange.mk lo up none :: l₂) =
        Papers.normalizeDistribution (l₁ ++ l₂)) := by
  refine ⟨fun q hq => ?_, fun q hq => ?_, rfl, fun l₁ l₂ lo up => ?_⟩
  · simp [Papers.normalizeProb, hq]
  · simp [Papers.normalizeProb, not_lt.mpr hq]
  · have hclean : Papers.cleanRanges (l₁ ++ RawRange.mk lo up none :: l₂) =
        Papers.cleanRanges (l₁ ++ l₂) := by
      simp [Papers.cleanRanges, List.filterMap_append, List.filterMap_cons,
        Papers.normalizeProb]
    simp only [Papers.normalizeDistribution, hclean]

/-- C10 witness: concrete instances of each clause. -/
theorem normalizeProb_semantics_witness :
    Papers.normalizeProb (some 40) = some (40 / 100) ∧
    Papers.normalizeProb (some (1/2)) = some (1/2) ∧
    Papers.normalizeDistribution
      [RawRange.mk (some 0) (some 1) (some 1), RawRange.mk (some 1) (some 2) none] =
      Papers.normalizeDistribution [RawRange.mk (some 0) (some 1) (some 1)] :=
  ⟨normalizeProb_semantics.1 40 (by norm_num),
   normalizeProb_semantics.2.1 (1/2) (by norm_num),
   by
    have h := normalizeProb_semantics.2.2.2 [RawRange.mk (some 0) (some 1) (some 1)] []
      (some 1) (some 2)
    simpa using h⟩

/-- C3: the synthetic width used for open-ended bins equals the median of the
snapshot's positive closed-bin widths (a literal 50000 when there are none);
closed widths 10000, 20000, 30000 give 20000; and the midpoint of an
open-ended bin lies half the synthetic width beyond its finite boundary. -/
theorem estimateBinWidth_is_median :
    (∀ bins : List Bin, Papers.estimateBinWidth bins =
      if (Papers.closedWidths bins).isEmpty then 50000
      else medianSpec (Papers.closedWidths bins)) ∧
    Papers.estimateBinWidth
      [Bin.mk (some 0) (some 10000), Bin.mk (some 10000) (some 30000),
        Bin.mk (some 30000) (some 60000)] = 20000 ∧
    (∀ l w : ℚ, Papers.midpointForBin (some l) none w = l + w / 2) ∧
    (∀ u w : ℚ, Papers.midpointForBin none (some u) w = u - w / 2) := by
  have hcw : Papers.closedWidths
      [Bin.mk (some 0) (some 10000), Bin.mk (some 10000) (some 30000),
        Bin.mk (some 30000) (some 60000)] = [10000, 20000, 30000] := by
    simp only [Papers.closedWidths, List.filterMap_cons, List.filterMap_nil]
    norm_num
  have hmerge : ([10000, 20000, 30000] : List ℚ).mergeSort (fun a b => decide (a ≤ b)) =
      [10000, 20000, 30000] := by
    apply List.mergeSort_of_sorted
    simp only [List.pairwise_cons, List.mem_cons, List.not_mem_nil, decide_eq_true_eq]
    norm_num
  refine ⟨fun bins => rfl, ?_, fun l w => rfl, fun u w => rfl⟩
  simp only [Papers.estimateBinWidth, hcw, hmerge]
  norm_num

/-- C2: a venue range with positive probability and positive expanded width
contributes to each canonical bin exactly its probability times the ratio of
the overlap length to the range's own length. -/
theorem rangeMass_proportional (r : CleanRange) (bin : Bin) (minBound maxBound step : ℚ)
    (hp : 0 < r.prob)
    (hw : 0 < (Papers.expandRange r.lower r.upper minBound maxBound step).2 -
      (Papers.expandRange r.lower r.upper minBound maxBound step).1) :
    Papers.rangeMass r bin minBound maxBound step =
      r.prob *
        (Papers.overlapLen (Papers.expandRange r.lower r.upper minBound maxBound step)
          (Papers.expandRange bin.lower bin.upper minBound maxBound step) /
        ((Papers.expandRange r.lower r.upper minBound maxBound step).2 -
          (Papers.expandRange r.lower r.upper minBound maxBound step).1)) := by
  simp only [Papers.rangeMass, if_neg (not_le.mpr hp), if_pos hw]
  split
  · rfl
  · rename_i hov
    have h0 : Papers.overlapLen
        (Papers.expandRange r.lower r.upper minBound maxBound step)
        (Papers.expandRange bin.lower bin.upper minBound maxBound step) = 0 :=
      le_antisymm (not_lt.mp hov) (le_max_left 0 _)
    rw [h0]
    simp

/-- C2 witness: the range [0, 2] with probability 1 sends mass 1 × (1/2) to
the canonical bin [0, 1]. -/
theorem rangeMass_proportional_witness :
    Papers.rangeMass (CleanRange.mk (some 0) (some 2) 1) (Bin.mk (some 0) (some 1)) 0 2 1 =
      1 * (Papers.overlapLen (Papers.expandRange (some 0) (some 2) 0 2 1)
        (Papers.expandRange (some 0) (some 1) 0 2 1) /
        ((Papers.expandRange (some 0) (some 2) 0 2 1).2 -
          (Papers.expandRange (some 0) (some 2) 0 2 1).1)) :=
  rangeMass_proportional (CleanRange.mk (some 0) (some 2) 1) (Bin.mk (some 0) (some 1))
    0 2 1 (by norm_num) (by norm_num [Papers.expandRange])

/-- C5: when both venues report a positive notional volume, each multiplier is
clamp(log1p(volume) / mean of the two log1p values, 0.5, 3.0), and therefore
lies in [0.5, 3.0].  (`Math.log1p` is abstracted as any function positive on
positive arguments.) -/
theorem computeVolumeWeights_formula (log1p : ℚ → ℚ)
    (hlog : ∀ x : ℚ, 0 < x → 0 < log1p x) (kv pv : ℚ) (hk : 0 < kv) (hp : 0 < pv) :
    Papers.computeVolumeWeights log1p (some kv) (some pv) =
      some (Papers.VolumeWeights.mk
        (Papers.clamp (log1p kv / ((log1p kv + log1p pv) / 2)) (1/2) 3)
        (Papers.clamp (log1p pv / ((log1p kv + log1p pv) / 2)) (1/2) 3)) ∧
    (∀ w, Papers.computeVolumeWeights log1p (some kv) (some pv) = some w →
      1/2 ≤ w.kalshi ∧ w.kalshi ≤ 3 ∧ 1/2 ≤ w.polymarket ∧ w.polymarket ≤ 3) := by
  have hmean : 0 < (log1p kv + log1p pv) / 2 := by
    have := hlog kv hk
    have := hlog pv hp
    positivity
  have heq : Papers.computeVolumeWeights log1p (some kv) (some pv) =
      some (Papers.VolumeWeights.mk
        (Papers.clamp (log1p kv / ((log1p kv + log1p pv) / 2)) (1/2) 3)
        (Papers.clamp (log1p pv / ((log1p kv + log1p pv) / 2)) (1/2) 3)) := by
    simp only [Papers.computeVolumeWeights]
    rw [if_neg, if_neg]
    · simp [hmean]
    · push_neg
      exact ⟨hk, hp⟩
  refine ⟨heq, fun w hw => ?_⟩
  rw [heq] at hw
  obtain rfl : w = _ := (Option.some_inj.mp hw).symm
  have hclamp : ∀ x : ℚ, 1/2 ≤ Papers.clamp x (1/2) 3 ∧ Papers.clamp x (1/2) 3 ≤ 3 := by
    intro x
    constructor
    · exact le_min (le_max_right x (1/2)) (by norm_num)
    · exact min_le_right _ 3
  exact ⟨(hclamp _).1, (hclamp _).2, (hclamp _).1, (hclamp _).2⟩

/-- C5 witness: with `log1p` instantiated to the identity and both volumes 1,
both multipliers are clamp(1, 0.5, 3) = 1. -/
theorem computeVolumeWeights_formula_witness :
    Papers.computeVolumeWeights (fun x : ℚ => x) (some 1) (some 1) =
      some (Papers.VolumeWeights.mk
        (Papers.clamp ((1 : ℚ) / ((1 + 1) / 2)) (1/2) 3)
        (Papers.clamp ((1 : ℚ) / ((1 + 1) / 2)) (1/2) 3)) ∧
    (∀ w, Papers.computeVolumeWeights (fun x : ℚ => x) (some 1) (some 1) = some w →
      1/2 ≤ w.kalshi ∧ w.kalshi ≤ 3 ∧ 1/2 ≤ w.polymarket ∧ w.polymarket ≤ 3) :=
  computeVolumeWeights_formula (fun x => x) (fun _ h => h) 1 1 one_pos one_pos

/-- C4: when at least one venue's notional volume is missing (and the snapshot
stores no precomputed volume weights), no volume weights are produced at all,
and the multiplier actually applied downstream is 1 for both venues,
regardless of the other venue's volume. -/
theorem missing_volume_no_adjustment (log1p : ℚ → ℚ) (snap : Papers.Snapshot)
    (hstored : (snap.posterior.bind fun p => p.model.bind (·.volume_weights)) = none)
    (hmissing : snap.source_meta.kalshiVolume = none ∨
      snap.source_meta.polymarketVolume = none) :
    Papers.getBlendWeightData log1p (some snap) = none ∧
    Papers.blendWeightFor
      ((Papers.getBlendWeightData log1p (some snap)).map (·.weights)) true = 1 ∧
    Papers.blendWeightFor
      ((Papers.getBlendWeightData log1p (some snap)).map (·.weights)) false = 1 := by
  have hcvw : Papers.computeVolumeWeights log1p snap.source_meta.kalshiVolume
      snap.source_meta.polymarketVolume = none := by
    rcases hmissing with h | h <;> rw [h] <;>
      cases snap.source_meta.kalshiVolume <;>
      cases snap.source_meta.polymarketVolume <;>
      simp_all [Papers.computeVolumeWeights]
  have hmain : Papers.getBlendWeightData log1p (some snap) = none := by
    simp only [Papers.getBlendWeightData, hstored, hcvw]
  exact ⟨hmain, by rw [hmain]; rfl, by rw [hmain]; rfl⟩

/-- C4 witness: kalshi volume missing, polymarket volume 10^6. -/
theorem missing_volume_no_adjustment_witness :
    Papers.getBlendWeightData (fun x : ℚ => x)
      (some (Papers.Snapshot.mk none (Papers.Sources.mk [] [])
        (Papers.SourceMeta.mk none (some 1000000)) none)) = none ∧
    Papers.blendWeightFor ((Papers.getBlendWeightData (fun x : ℚ => x)
      (some (Papers.Snapshot.mk none (Papers.Sources.mk [] [])
        (Papers.SourceMeta.mk none (some 1000000)) none))).map (·.weights)) true = 1 ∧
    Papers.blendWeightFor ((Papers.getBlendWeightData (fun x : ℚ => x)
      (some (Papers.Snapshot.mk none (Papers.Sources.mk [] [])
        (Papers.SourceMeta.mk none (some 1000000)) none))).map (·.weights)) false = 1 :=
  missing_volume_no_adjustment (fun x => x)
    (Papers.Snapshot.mk none (Papers.Sources.mk [] [])
      (Papers.SourceMeta.mk none (some 1000000)) none)
    rfl (Or.inl rfl)

/-- C8: when no venue supplies any bin with a finite probability, both
normalized venue lists are empty, the combined distribution is empty, the
rendering path rejects the snapshot before producing anything, and the bin
normalizer returns no aligned vector. -/
theorem insufficient_data_rejected (snap : Priors.PSnapshot)
    (hk : ∀ r ∈ snap.kalshi, r.prob = none)
    (hp : ∀ r ∈ snap.polymarket, r.prob = none) :
    Priors.normalizeDistribution snap.kalshi = [] ∧
    Priors.normalizeDistribution snap.polymarket = [] ∧
    (Priors.buildCombinedSnapshot snap).combined = [] ∧
    (∀ snapshots, Priors.pickLatestSnapshot snapshots = some snap →
      Priors.renderEventOutcome snapshots = Priors.RenderOutcome.noBracketData) ∧
    (∀ (ranges : List RawRange) (bins : List Bin) (step : ℚ),
      (∀ r ∈ ranges, r.prob = none) →
      Papers.aggregateRangesToStandard ranges bins step = []) := by
  have hnil : ∀ ranges : List Priors.PRange, (∀ r ∈ ranges, r.prob = none) →
      Priors.normalizeDistribution ranges = [] := by
    intro ranges hall
    have hclean : Priors.cleanPRanges ranges = [] := by
      refine List.filterMap_eq_nil_iff.mpr fun r hr => ?_
      rw [hall r hr]
      rfl
    simp [Priors.normalizeDistribution, hclean]
  have hknil := hnil snap.kalshi hk
  have hpnil := hnil snap.polymarket hp
  have hcomb : (Priors.buildCombinedSnapshot snap).combined = [] := by
    simp [Priors.buildCombinedSnapshot, Priors.combineDistributions, hknil, hpnil,
      PLSite.ingestClean, PLSite.finishCombine]
  refine ⟨hknil, hpnil, hcomb, ?_, ?_⟩
  · intro snapshots hpick
    simp [Priors.renderEventOutcome, hpick, Priors.buildCombinedSnapshot, hknil, hpnil]
  · intro ranges bins step hall
    have hclean : Papers.cleanRanges ranges = [] := by
      refine List.filterMap_eq_nil_iff.mpr fun r hr => ?_
      rw [hall r hr]
      rfl
    simp [Papers.aggregateRangesToStandard, Papers.normalizeDistribution, hclean]

/-- C8 witness: one venue reporting a single null-probability bracket and one
venue reporting nothing. -/
theorem insufficient_data_rejected_witness :
    Priors.normalizeDistribution [Priors.PRange.mk (some 0) (some 1) none none none] = [] ∧
    Priors.renderEventOutcome
      [Priors.PSnapshot.mk (some 0) [Priors.PRange.mk (some 0) (some 1) none none none] []] =
      Priors.RenderOutcome.noBracketData ∧
    Papers.aggregateRangesToStandard [RawRange.mk (some 0) (some 1) none]
      [Bin.mk (some 0) (some 1)] 1 = [] := by
  have h := insufficient_data_rejected
    (Priors.PSnapshot.mk (some 0) [Priors.PRange.mk (some 0) (some 1) none none none] [])
    (by intro r hr; rw [List.mem_singleton] at hr; rw [hr])
    (by intro r hr; exact absurd hr (List.not_mem_nil r))
  refine ⟨h.1, h.2.2.2.1 _ ?_, h.2.2.2.2 _ _ 1 ?_⟩
  · simp [Priors.pickLatestSnapshot]
  · intro r hr
    rw [List.mem_singleton] at hr
    rw [hr]

/-- C9: the snapshot served as latest carries the maximal parseable `as_of`
timestamp, the expectation time series is ordered by ascending timestamp, and
snapshots with unparseable timestamps are excluded from both. -/
theorem snapshot_ordering (snapshots : List Papers.Snapshot)
    (hsome : ∃ s ∈ snapshots, s.as_of.isSome = true) :
    (∃ s t, Papers.pickLatestSnapshot snapshots = some s ∧ s ∈ snapshots ∧
      s.as_of = some t ∧
      ∀ s' ∈ snapshots, ∀ t', s'.as_of = some t' → t' ≤ t) ∧
    (Papers.expectationSeriesOrder snapshots).Pairwise (fun a b => a.2 ≤ b.2) ∧
    (Papers.expectationSeriesOrder snapshots).Perm
      (snapshots.filterMap fun s => s.as_of.map fun t => (s, t)) := by
  have hmem : ∀ p : Papers.Snapshot × ℚ,
      p ∈ (snapshots.filterMap fun s => s.as_of.map fun t => (s, t)) ↔
        p.1 ∈ snapshots ∧ p.1.as_of = some p.2 := by
    rintro ⟨p1, p2⟩
    constructor
    · intro hp
      rcases List.mem_filterMap.mp hp with ⟨a, ha, hfa⟩
      rcases Option.map_eq_some'.mp hfa with ⟨t, hat, hpt⟩
      cases hpt
      exact ⟨ha, hat⟩
    · rintro ⟨h1, h2⟩
      exact List.mem_filterMap.mpr ⟨p1, h1, by rw [h2]; rfl⟩
  have htrans : ∀ a b c : Papers.Snapshot × ℚ,
      decide (b.2 ≤ a.2) = true → decide (c.2 ≤ b.2) = true →
      decide (c.2 ≤ a.2) = true := by
    intro a b c hab hbc
    rw [decide_eq_true_eq] at *
    exact le_trans hbc hab
  have htotal : ∀ a b : Papers.Snapshot × ℚ,
      (decide (b.2 ≤ a.2) || decide (a.2 ≤ b.2)) = true := by
    intro a b
    simp only [Bool.or_eq_true, decide_eq_true_eq]
    exact le_total b.2 a.2
  obtain ⟨s₀, hs₀, hs₀some⟩ := hsome
  obtain ⟨t₀, ht₀⟩ := Option.isSome_iff_exists.mp hs₀some
  have h₀L : (s₀, t₀) ∈ (snapshots.filterMap fun s => s.as_of.map fun t => (s, t)) :=
    (hmem (s₀, t₀)).mpr ⟨hs₀, ht₀⟩
  have hperm : ((snapshots.filterMap fun s => s.as_of.map fun t => (s, t)).mergeSort
      fun a b => decide (b.2 ≤ a.2)).Perm
      (snapshots.filterMap fun s => s.as_of.map fun t => (s, t)) :=
    List.mergeSort_perm _ _
  have hne : ((snapshots.filterMap fun s => s.as_of.map fun t => (s, t)).mergeSort
      fun a b => decide (b.2 ≤ a.2)) ≠ [] := by
    intro h
    rw [h] at hperm
    rw [← hperm.nil_eq] at h₀L
    exact absurd h₀L (List.not_mem_nil _)
  obtain ⟨d, D', hcons⟩ := List.exists_cons_of_ne_nil hne
  have hsorted := List.sorted_mergeSort htrans htotal
    (snapshots.filterMap fun s => s.as_of.map fun t => (s, t))
  rw [hcons] at hsorted hperm
  have hdL : d ∈ (snapshots.filterMap fun s => s.as_of.map fun t => (s, t)) :=
    hperm.mem_iff.mp (List.mem_cons_self d D')
  obtain ⟨hd1, hd2⟩ := (hmem d).mp hdL
  have hpick : Papers.pickLatestSnapshot snapshots = some d.1 := by
    unfold Papers.pickLatestSnapshot
    rw [hcons]
    rfl
  refine ⟨⟨d.1, d.2, hpick, hd1, hd2, ?_⟩, ?_, ?_⟩
  · intro s' hs' t' ht'
    have h'D : (s', t') ∈ d :: D' :=
      hperm.mem_iff.mpr ((hmem (s', t')).mpr ⟨hs', ht'⟩)
    rcases List.mem_cons.mp h'D with h | h
    · rw [← h]
    · have hrel := (List.pairwise_cons.mp hsorted).1 _ h
      rw [decide_eq_true_eq] at hrel
      exact hrel
  · have h2trans : ∀ a b c : Papers.Snapshot × ℚ,
        decide (a.2 ≤ b.2) = true → decide (b.2 ≤ c.2) = true →
        decide (a.2 ≤ c.2) = true := by
      intro a b c hab hbc
      rw [decide_eq_true_eq] at *
      exact le_trans hab hbc
    have h2total : ∀ a b : Papers.Snapshot × ℚ,
        (decide (a.2 ≤ b.2) || decide (b.2 ≤ a.2)) = true := by
      intro a b
      simp only [Bool.or_eq_true, decide_eq_true_eq]
      exact le_total a.2 b.2
    have h2 := List.sorted_mergeSort h2trans h2total
      (snapshots.filterMap fun s => s.as_of.map fun t => (s, t))
    exact List.Pairwise.imp (fun h => decide_eq_true_eq.mp h) h2
  · exact List.mergeSort_perm _ _

/-- C9 witness: three snapshots, one with an unparseable timestamp; the
snapshot with timestamp 5 is served as latest. -/
theorem snapshot_ordering_witness :
    (∃ s t, Papers.pickLatestSnapshot
        [Papers.Snapshot.mk none (Papers.Sources.mk [] [])
          (Papers.SourceMeta.mk none none) none,
         Papers.Snapshot.mk (some 5) (Papers.Sources.mk [] [])
          (Papers.SourceMeta.mk none none) none,
         Papers.Snapshot.mk (some 3) (Papers.Sources.mk [] [])
          (Papers.SourceMeta.mk none none) none] = some s ∧
      s ∈ [Papers.Snapshot.mk none (Papers.Sources.mk [] [])
          (Papers.SourceMeta.mk none none) none,
         Papers.Snapshot.mk (some 5) (Papers.Sources.mk [] [])
          (Papers.SourceMeta.mk none none) none,
         Papers.Snapshot.mk (some 3) (Papers.Sources.mk [] [])
          (Papers.SourceMeta.mk none none) none] ∧ s.as_of = some t ∧
      ∀ s' ∈ [Papers.Snapshot.mk none (Papers.Sources.mk [] [])
          (Papers.SourceMeta.mk none none) none,
         Papers.Snapshot.mk (some 5) (Papers.Sources.mk [] [])
          (Papers.SourceMeta.mk none none) none,
         Papers.Snapshot.mk (some 3) (Papers.Sources.mk [] [])
          (Papers.SourceMeta.mk none none) none], ∀ t', s'.as_of = some t' → t' ≤ t) ∧
    (Papers.expectationSeriesOrder
      [Papers.Snapshot.mk none (Papers.Sources.mk [] [])
          (Papers.SourceMeta.mk none none) none,
       Papers.Snapshot.mk (some 5) (Papers.Sources.mk [] [])
          (Papers.SourceMeta.mk none none) none,
       Papers.Snapshot.mk (some 3) (Papers.Sources.mk [] [])
          (Papers.SourceMeta.mk none none) none]).Pairwise (fun a b => a.2 ≤ b.2) ∧
    (Papers.expectationSeriesOrder
      [Papers.Snapshot.mk none (Papers.Sources.mk [] [])
          (Papers.SourceMeta.mk none none) none,
       Papers.Snapshot.mk (some 5) (Papers.Sources.mk [] [])
          (Papers.SourceMeta.mk none none) none,
       Papers.Snapshot.mk (some 3) (Papers.Sources.mk [] [])
          (Papers.SourceMeta.mk none none) none]).Perm
      ([Papers.Snapshot.mk none (Papers.Sources.mk [] [])
          (Papers.SourceMeta.mk none none) none,
        Papers.Snapshot.mk (some 5) (Papers.Sources.mk [] [])
          (Papers.SourceMeta.mk none none) none,
        Papers.Snapshot.mk (some 3) (Papers.Sources.mk [] [])
          (Papers.SourceMeta.mk none none) none].filterMap
        fun s => s.as_of.map fun t => (s, t)) :=
  snapshot_ordering _
    ⟨Papers.Snapshot.mk (some 5) (Papers.Sources.mk [] [])
        (Papers.SourceMeta.mk none none) none,
      by simp, rfl⟩

/-- C1: when a venue's ranges carry positive probability mass overlapping the
canonical grid (the accumulated per-bin totals have positive sum), the bin
normalizer emits one value per canonical bin, the values are non-negative and
sum to 1 after renormalization, and a canonical bin receiving no mass from any
range is assigned 0. -/
theorem aggregate_covers_all_bins (ranges : List RawRange) (standardBins : List Bin)
    (step : ℚ)
    (hpos : 0 < (Papers.aggregateTotals (Papers.normalizeDistribution ranges) standardBins
      (Papers.aggMinBound standardBins)
      (Papers.aggMaxBound standardBins (Papers.aggMinBound standardBins) step) step).sum) :
    (Papers.aggregateRangesToStandard ranges standardBins step).length =
      standardBins.length ∧
    (Papers.aggregateRangesToStandard ranges standardBins step).sum = 1 ∧
    (∀ q ∈ Papers.aggregateRangesToStandard ranges standardBins step, 0 ≤ q) ∧
    (∀ i (hi : i < standardBins.length),
      (∀ r ∈ Papers.normalizeDistribution ranges,
        Papers.rangeMass r standardBins[i] (Papers.aggMinBound standardBins)
          (Papers.aggMaxBound standardBins (Papers.aggMinBound standardBins) step) step
          = 0) →
      (Papers.aggregateRangesToStandard ranges standardBins step)[i]? = some 0) := by
  have hbins : standardBins.isEmpty = false := by
    cases hsb : standardBins with
    | nil => rw [hsb] at hpos; simp [Papers.aggregateTotals] at hpos
    | cons a l => rfl
  have hclean : (Papers.normalizeDistribution ranges).isEmpty = false := by
    cases hc : Papers.normalizeDistribution ranges with
    | nil =>
      rw [hc] at hpos
      have hzero : (Papers.aggregateTotals [] standardBins
          (Papers.aggMinBound standardBins)
          (Papers.aggMaxBound standardBins (Papers.aggMinBound standardBins) step)
          step).sum = 0 := by
        refine List.sum_eq_zero fun x hx => ?_
        rcases List.mem_map.mp hx with ⟨b, hb, hbx⟩
        simpa using hbx.symm
      rw [hzero] at hpos
      exact absurd hpos (lt_irrefl 0)
    | cons a l => rfl
  have hout : Papers.aggregateRangesToStandard ranges standardBins step =
      (Papers.aggregateTotals (Papers.normalizeDistribution ranges) standardBins
        (Papers.aggMinBound standardBins)
        (Papers.aggMaxBound standardBins (Papers.aggMinBound standardBins) step)
        step).map
        (· / (Papers.aggregateTotals (Papers.normalizeDistribution ranges) standardBins
          (Papers.aggMinBound standardBins)
          (Papers.aggMaxBound standardBins (Papers.aggMinBound standardBins) step)
          step).sum) := by
    simp only [Papers.aggregateRangesToStandard, hbins, hclean, Bool.or_self, if_pos hpos]
    simp
  rw [hout]
  refine ⟨?_, ?_, ?_, ?_⟩
  · simp [Papers.aggregateTotals]
  · rw [sum_map_div]
    exact div_self (ne_of_gt hpos)
  · intro q hq
    rcases List.mem_map.mp hq with ⟨t, ht, rfl⟩
    have htnn : 0 ≤ t := by
      rcases List.mem_map.mp ht with ⟨b, hb, rfl⟩
      exact List.sum_nonneg fun x hx => by
        rcases List.mem_map.mp hx with ⟨r, hr, rfl⟩
        exact rangeMass_nonneg r b _ _ _
    exact div_nonneg htnn (le_of_lt hpos)
  · intro i hi hall
    rw [List.getElem?_map]
    have hTi : (Papers.aggregateTotals (Papers.normalizeDistribution ranges) standardBins
        (Papers.aggMinBound standardBins)
        (Papers.aggMaxBound standardBins (Papers.aggMinBound standardBins) step)
        step)[i]? =
        some (((Papers.normalizeDistribution ranges).map fun r =>
          Papers.rangeMass r standardBins[i] (Papers.aggMinBound standardBins)
            (Papers.aggMaxBound standardBins (Papers.aggMinBound standardBins) step)
            step).sum) := by
      unfold Papers.aggregateTotals
      rw [List.getElem?_map, List.getElem?_eq_getElem hi]
      rfl
    rw [hTi]
    have hz : (((Papers.normalizeDistribution ranges).map fun r =>
        Papers.rangeMass r standardBins[i] (Papers.aggMinBound standardBins)
          (Papers.aggMaxBound standardBins (Papers.aggMinBound standardBins) step)
          step).sum) = 0 := by
      refine List.sum_eq_zero fun x hx => ?_
      rcases List.mem_map.mp hx with ⟨r, hr, rfl⟩
      exact hall r hr
    rw [hz]
    simp

/-- C1 witness: one venue range [0, 1] with probability 1 over the single
canonical bin [0, 1]. -/
theorem aggregate_covers_all_bins_witness :
    (Papers.aggregateRangesToStandard [RawRange.mk (some 0) (some 1) (some 1)]
      [Bin.mk (some 0) (some 1)] 1).length = 1 ∧
    (Papers.aggregateRangesToStandard [RawRange.mk (some 0) (some 1) (some 1)]
      [Bin.mk (some 0) (some 1)] 1).sum = 1 ∧
    (∀ q ∈ Papers.aggregateRangesToStandard [RawRange.mk (some 0) (some 1) (some 1)]
      [Bin.mk (some 0) (some 1)] 1, 0 ≤ q) := by
  have hpos : 0 < (Papers.aggregateTotals
      (Papers.normalizeDistribution [RawRange.mk (some 0) (some 1) (some 1)])
      [Bin.mk (some 0) (some 1)]
      (Papers.aggMinBound [Bin.mk (some 0) (some 1)])
      (Papers.aggMaxBound [Bin.mk (some 0) (some 1)]
        (Papers.aggMinBound [Bin.mk (some 0) (some 1)]) 1) 1).sum := by
    have h1 : Papers.normalizeDistribution [RawRange.mk (some 0) (some 1) (some 1)] =
        [CleanRange.mk (some 0) (some 1) 1] := by
      norm_num [Papers.normalizeDistribution, Papers.cleanRanges, Papers.normalizeProb,
        List.filterMap_cons]
    have hmin : Papers.aggMinBound [Bin.mk (some 0) (some 1)] = 0 := rfl
    have hmax : Papers.aggMaxBound [Bin.mk (some 0) (some 1)] 0 1 = 1 := rfl
    rw [h1, hmin, hmax]
    norm_num [Papers.aggregateTotals, Papers.rangeMass, Papers.expandRange,
      Papers.overlapLen]
  have h := aggregate_covers_all_bins [RawRange.mk (some 0) (some 1) (some 1)]
    [Bin.mk (some 0) (some 1)] 1 hpos
  exact ⟨h.1, h.2.1, h.2.2.1⟩

theorem rangeMass_eq_zero_of_sep (r : CleanRange) (bin : Bin) (mB xB step : ℚ)
    (h : (Papers.expandRange bin.lower bin.upper mB xB step).2 ≤
        (Papers.expandRange r.lower r.upper mB xB step).1 ∨
      (Papers.expandRange r.lower r.upper mB xB step).2 ≤
        (Papers.expandRange bin.lower bin.upper mB xB step).1) :
    Papers.rangeMass r bin mB xB step = 0 := by
  simp only [Papers.rangeMass]
  split
  · rfl
  · split
    · split
      · rename_i hov
        exfalso
        have hpos : 0 < (Papers.expandRange r.lower r.upper mB xB step).2 ⊓
            (Papers.expandRange bin.lower bin.upper mB xB step).2 -
            (Papers.expandRange r.lower r.upper mB xB step).1 ⊔
            (Papers.expandRange bin.lower bin.upper mB xB step).1 := by
          rcases lt_max_iff.mp hov with h' | h'
          · exact absurd h' (lt_irrefl 0)
          · exact h'
        have hlt : (Papers.expandRange r.lower r.upper mB xB step).1 ⊔
            (Papers.expandRange bin.lower bin.upper mB xB step).1 <
            (Papers.expandRange r.lower r.upper mB xB step).2 ⊓
            (Papers.expandRange bin.lower bin.upper mB xB step).2 :=
          lt_of_sub_pos hpos
        rcases h with h' | h'
        · exact absurd (lt_of_le_of_lt (le_max_left _ _)
            (lt_of_lt_of_le hlt (le_trans (min_le_right _ _) h'))) (lt_irrefl _)
        · exact absurd (lt_of_le_of_lt (le_max_right _ _)
            (lt_of_lt_of_le hlt (le_trans (min_le_left _ _) h'))) (lt_irrefl _)
      · rfl
    · rfl

theorem rangeMass_self (b : Bin) (p mB xB step : ℚ) (hp : 0 ≤ p)
    (hw : 0 < (Papers.expandRange b.lower b.upper mB xB step).2 -
      (Papers.expandRange b.lower b.upper mB xB step).1) :
    Papers.rangeMass (CleanRange.mk b.lower b.upper p) b mB xB step = p := by
  have hov : Papers.overlapLen (Papers.expandRange b.lower b.upper mB xB step)
      (Papers.expandRange b.lower b.upper mB xB step) =
      (Papers.expandRange b.lower b.upper mB xB step).2 -
      (Papers.expandRange b.lower b.upper mB xB step).1 := by
    simp only [Papers.overlapLen, min_self, max_self]
    exact max_eq_right (le_of_lt hw)
  simp only [Papers.rangeMass, hov, if_pos hw]
  split
  · rename_i hle
    exact (le_antisymm hle hp).symm
  · rw [div_self (ne_of_gt hw), mul_one]

theorem aggregateTotals_diagonal (mB xB step : ℚ) :
    ∀ l : List (Bin × ℚ),
    (∀ x ∈ l, 0 ≤ x.2) →
    (∀ x ∈ l, 0 < (Papers.expandRange x.1.lower x.1.upper mB xB step).2 -
      (Papers.expandRange x.1.lower x.1.upper mB xB step).1) →
    l.Pairwise (fun a b => (Papers.expandRange a.1.lower a.1.upper mB xB step).2 ≤
      (Papers.expandRange b.1.lower b.1.upper mB xB step).1) →
    Papers.aggregateTotals (l.map fun x => CleanRange.mk x.1.lower x.1.upper x.2)
      (l.map (·.1)) mB xB step = l.map (·.2) := by
  intro l
  induction l with
  | nil => intro _ _ _; rfl
  | cons x xs ih =>
    intro h0 hw hchain
    obtain ⟨hx_rel, hchain'⟩ := List.pairwise_cons.mp hchain
    have hhead : Papers.rangeMass (CleanRange.mk x.1.lower x.1.upper x.2) x.1 mB xB step
        = x.2 :=
      rangeMass_self x.1 x.2 mB xB step (h0 x (List.mem_cons_self x xs))
        (hw x (List.mem_cons_self x xs))
    have htail0 : ∀ y ∈ xs,
        Papers.rangeMass (CleanRange.mk y.1.lower y.1.upper y.2) x.1 mB xB step = 0 :=
      fun y hy => rangeMass_eq_zero_of_sep _ _ _ _ _ (Or.inl (hx_rel y hy))
    have hhead0 : ∀ y ∈ xs,
        Papers.rangeMass (CleanRange.mk x.1.lower x.1.upper x.2) y.1 mB xB step = 0 :=
      fun y hy => rangeMass_eq_zero_of_sep _ _ _ _ _ (Or.inr (hx_rel y hy))
    have hdrop : Papers.aggregateTotals
        ((x :: xs).map fun z => CleanRange.mk z.1.lower z.1.upper z.2)
        (xs.map (·.1)) mB xB step =
        Papers.aggregateTotals (xs.map fun z => CleanRange.mk z.1.lower z.1.upper z.2)
          (xs.map (·.1)) mB xB step := by
      unfold Papers.aggregateTotals
      refine List.map_congr_left fun b hb => ?_
      rcases List.mem_map.mp hb with ⟨y, hy, rfl⟩
      simp only [List.map_cons, List.sum_cons, hhead0 y hy, zero_add]
    have hmain : Papers.aggregateTotals
        ((x :: xs).map fun z => CleanRange.mk z.1.lower z.1.upper z.2)
        ((x :: xs).map (·.1)) mB xB step =
        (((x :: xs).map fun z => CleanRange.mk z.1.lower z.1.upper z.2).map
          (fun r => Papers.rangeMass r x.1 mB xB step)).sum ::
        Papers.aggregateTotals ((x :: xs).map fun z => CleanRange.mk z.1.lower z.1.upper z.2)
          (xs.map (·.1)) mB xB step := rfl
    rw [hmain, hdrop,
      ih (fun y hy => h0 y (List.mem_cons_of_mem x hy))
        (fun y hy => hw y (List.mem_cons_of_mem x hy)) hchain']
    rw [List.map_cons (fun z : Bin × ℚ => z.2)]
    congr 1
    rw [List.map_cons, List.map_cons, List.sum_cons, hhead]
    have hz : ((xs.map fun z => CleanRange.mk z.1.lower z.1.upper z.2).map
        (fun r => Papers.rangeMass r x.1 mB xB step)).sum = 0 := by
      refine List.sum_eq_zero fun v hv => ?_
      rcases List.mem_map.mp hv with ⟨c, hc, rfl⟩
      rcases List.mem_map.mp hc with ⟨y, hy, rfl⟩
      exact htail0 y hy
    rw [hz, add_zero]

/-- C7: re-running the bin normalizer on a distribution already aligned to the
canonical grid (one range per canonical bin, the expanded bins having positive
width and forming a non-overlapping chain, probabilities already in [0, 1.5])
is a no-op: the output is the input probabilities after renormalization. -/
theorem normalizer_idempotent (l : List (Bin × ℚ)) (step mB xB : ℚ)
    (hmB : mB = Papers.aggMinBound (l.map (·.1)))
    (hxB : xB = Papers.aggMaxBound (l.map (·.1)) mB step)
    (hne : l ≠ [])
    (hprob : ∀ x ∈ l, 0 ≤ x.2 ∧ x.2 ≤ 3/2)
    (hsum : 0 < (l.map (·.2)).sum)
    (hw : ∀ x ∈ l, 0 < (Papers.expandRange x.1.lower x.1.upper mB xB step).2 -
      (Papers.expandRange x.1.lower x.1.upper mB xB step).1)
    (hchain : l.Pairwise fun a b =>
      (Papers.expandRange a.1.lower a.1.upper mB xB step).2 ≤
      (Papers.expandRange b.1.lower b.1.upper mB xB step).1) :
    Papers.aggregateRangesToStandard
      (l.map fun x => RawRange.mk x.1.lower x.1.upper (some x.2))
      (l.map (·.1)) step = l.map fun x => x.2 / (l.map (·.2)).sum := by
  have hcleangen : ∀ m : List (Bin × ℚ), (∀ x ∈ m, x.2 ≤ 3/2) →
      Papers.cleanRanges (m.map fun x => RawRange.mk x.1.lower x.1.upper (some x.2)) =
        m.map fun x => CleanRange.mk x.1.lower x.1.upper x.2 := by
    intro m
    induction m with
    | nil => intro _; rfl
    | cons y ys ihm =>
      intro hm
      have hnp : Papers.normalizeProb (some y.2) = some y.2 := by
        simp [Papers.normalizeProb, not_lt.mpr (hm y (List.mem_cons_self y ys))]
      simp only [List.map_cons, Papers.cleanRanges, List.filterMap_cons] at ihm ⊢
      rw [hnp]
      simp only [Option.map_some']
      rw [ihm fun z hz => hm z (List.mem_cons_of_mem y hz)]
  have hclean := hcleangen l fun x hx => (hprob x hx).2
  have hcleansum : ((Papers.cleanRanges
      (l.map fun x => RawRange.mk x.1.lower x.1.upper (some x.2))).map (·.prob)).sum =
      (l.map (·.2)).sum := by
    rw [hclean, List.map_map]
    rfl
  have hnorm : Papers.normalizeDistribution
      (l.map fun x => RawRange.mk x.1.lower x.1.upper (some x.2)) =
      l.map fun x => CleanRange.mk x.1.lower x.1.upper (x.2 / (l.map (·.2)).sum) := by
    simp only [Papers.normalizeDistribution]
    rw [hclean, List.map_map]
    have hfuse : (l.map ((fun r : CleanRange => r.prob) ∘
        fun x : Bin × ℚ => CleanRange.mk x.1.lower x.1.upper x.2)).sum =
        (l.map (·.2)).sum := rfl
    rw [hfuse, if_pos hsum, List.map_map]
    rfl
  have hdiag := aggregateTotals_diagonal mB xB step
    (l.map fun x => (x.1, x.2 / (l.map (·.2)).sum))
    (by
      intro z hz
      rcases List.mem_map.mp hz with ⟨y, hy, rfl⟩
      exact div_nonneg (hprob y hy).1 (le_of_lt hsum))
    (by
      intro z hz
      rcases List.mem_map.mp hz with ⟨y, hy, rfl⟩
      exact hw y hy)
    (by
      rw [List.pairwise_map]
      exact hchain)
  rw [List.map_map, List.map_map, List.map_map] at hdiag
  have hfst : (l.map fun x => ((x.1, x.2 / (l.map (·.2)).sum) : Bin × ℚ).1) = l.map (·.1) :=
    rfl
  have hcomp : (l.map fun x =>
      CleanRange.mk ((x.1, x.2 / (l.map (·.2)).sum) : Bin × ℚ).1.lower
        ((x.1, x.2 / (l.map (·.2)).sum) : Bin × ℚ).1.upper
        ((x.1, x.2 / (l.map (·.2)).sum) : Bin × ℚ).2) =
      l.map fun x => CleanRange.mk x.1.lower x.1.upper (x.2 / (l.map (·.2)).sum) := rfl
  have hlne : (l.map (·.1) : List Bin).isEmpty = false :=
    List.isEmpty_eq_false.mpr (by simpa using hne)
  have hcne : (Papers.normalizeDistribution
      (l.map fun x => RawRange.mk x.1.lower x.1.upper (some x.2))).isEmpty = false := by
    rw [hnorm]
    exact List.isEmpty_eq_false.mpr (by simpa using hne)
  have htotals : Papers.aggregateTotals
      (Papers.normalizeDistribution (l.map fun x => RawRange.mk x.1.lower x.1.upper (some x.2)))
      (l.map (·.1)) mB xB step = l.map fun x => x.2 / (l.map (·.2)).sum := by
    rw [hnorm]
    exact hcomp ▸ hfst ▸ hdiag
  have hTone : (l.map fun x => x.2 / (l.map (·.2)).sum).sum = 1 := by
    have : (l.map fun x => x.2 / (l.map (·.2)).sum) =
        (l.map (·.2)).map (· / (l.map (·.2)).sum) := by
      rw [List.map_map]
      rfl
    rw [this, sum_map_div]
    exact div_self (ne_of_gt hsum)
  simp only [Papers.aggregateRangesToStandard, hlne, hcne, ← hmB, ← hxB, htotals, hTone]
  norm_num

/-- C7 witness: two canonical bins [0,1] and [1,2] carrying 1/2 each; the
normalizer returns [1/2, 1/2]. -/
theorem normalizer_idempotent_witness :
    Papers.aggregateRangesToStandard
      ([(Bin.mk (some 0) (some 1), (1 : ℚ)/2), (Bin.mk (some 1) (some 2), (1 : ℚ)/2)].map
        fun x => RawRange.mk x.1.lower x.1.upper (some x.2))
      ([(Bin.mk (some 0) (some 1), (1 : ℚ)/2), (Bin.mk (some 1) (some 2), (1 : ℚ)/2)].map
        (·.1)) 1 =
      [(Bin.mk (some 0) (some 1), (1 : ℚ)/2), (Bin.mk (some 1) (some 2), (1 : ℚ)/2)].map
        fun x => x.2 /
          ([(Bin.mk (some 0) (some 1), (1 : ℚ)/2),
            (Bin.mk (some 1) (some 2), (1 : ℚ)/2)].map (·.2)).sum := by
  have hmB : Papers.aggMinBound
      ([(Bin.mk (some 0) (some 1), (1 : ℚ)/2), (Bin.mk (some 1) (some 2), (1 : ℚ)/2)].map
        (·.1)) = 0 := rfl
  have hxB : Papers.aggMaxBound
      ([(Bin.mk (some 0) (some 1), (1 : ℚ)/2), (Bin.mk (some 1) (some 2), (1 : ℚ)/2)].map
        (·.1)) 0 1 = 2 := rfl
  refine normalizer_idempotent _ 1 0 2 hmB.symm hxB.symm (by simp) ?_ ?_ ?_ ?_
  · intro x hx
    rcases List.mem_cons.mp hx with h | h
    · rw [h]; norm_num
    · rw [List.mem_singleton] at h; rw [h]; norm_num
  · norm_num
  · intro x hx
    rcases List.mem_cons.mp hx with h | h
    · rw [h]; norm_num [Papers.expandRange]
    · rw [List.mem_singleton] at h; rw [h]; norm_num [Papers.expandRange]
  · refine List.pairwise_cons.mpr ⟨?_, List.pairwise_singleton _ _⟩
    intro b hb
    rw [List.mem_singleton] at hb
    rw [hb]
    norm_num [Papers.expandRange]

theorem entryKey_setVenueProb (isK : Bool) (e : CombEntry) (p : ℚ) :
    entryKey (setVenueProb isK e p) = entryKey e := by
  cases isK <;> rfl

theorem combinedRawOf_setVenueProb (isK : Bool) (lo up : Option ℚ) (p : ℚ) :
    combinedRawOf (setVenueProb isK (CombEntry.mk lo up none none) p) = some p := by
  cases isK <;> simp [combinedRawOf, setVenueProb, div_one]

theorem ingestClean_fresh (isK : Bool) :
    ∀ (clean : List CleanRange) (acc : List CombEntry),
    (∀ r ∈ clean, ∀ e ∈ acc, entryKey e ≠ (r.lower, r.upper)) →
    (clean.map fun r => ((r.lower, r.upper) : Option ℚ × Option ℚ)).Nodup →
    ingestClean isK clean acc = acc ++ clean.map fun r =>
      setVenueProb isK (CombEntry.mk r.lower r.upper none none) r.prob := by
  intro clean
  induction clean with
  | nil => intro acc _ _; simp [ingestClean]
  | cons r rs ih =>
    intro acc hdisj hnodup
    obtain ⟨hr_not, hnodup'⟩ := List.nodup_cons.mp hnodup
    have hany : (acc.any fun e => decide (entryKey e = (r.lower, r.upper))) = false := by
      rw [List.any_eq_false]
      intro e he
      simp only [decide_eq_true_eq]
      exact hdisj r (List.mem_cons_self r rs) e he
    have hstep : ingestClean isK (r :: rs) acc = ingestClean isK rs
        (acc ++ [setVenueProb isK (CombEntry.mk r.lower r.upper none none) r.prob]) := by
      unfold ingestClean
      rw [List.foldl_cons]
      congr 1
      simp only [hany, Bool.false_eq_true, if_false]
    have hdisj' : ∀ r' ∈ rs,
        ∀ e ∈ acc ++ [setVenueProb isK (CombEntry.mk r.lower r.upper none none) r.prob],
        entryKey e ≠ (r'.lower, r'.upper) := by
      intro r' hr' e he
      rcases List.mem_append.mp he with he' | he'
      · exact hdisj r' (List.mem_cons_of_mem r hr') e he'
      · rw [List.mem_singleton] at he'
        subst he'
        rw [entryKey_setVenueProb]
        intro hkey
        refine hr_not ?_
        refine List.mem_map.mpr ⟨r', hr', ?_⟩
        have : entryKey (CombEntry.mk r.lower r.upper none none) = (r.lower, r.upper) := rfl
        rw [this] at hkey
        exact hkey.symm
    rw [hstep, ih _ hdisj' hnodup', List.append_assoc]
    rw [List.map_cons]
    rfl

theorem finishCombine_single (isK : Bool) (norm : List CleanRange)
    (hnodup : (norm.map fun r => ((r.lower, r.upper) : Option ℚ × Option ℚ)).Nodup)
    (hsum1 : (norm.map (·.prob)).sum = 1) :
    ((finishCombine (ingestClean isK norm [])).map fun e =>
      (e.lower, e.upper, some e.combined)).Perm
      (norm.map fun r =>
        ((r.lower, r.upper, some r.prob) : Option ℚ × Option ℚ × Option ℚ)) := by
  have hing : ingestClean isK norm [] = norm.map fun r =>
      setVenueProb isK (CombEntry.mk r.lower r.upper none none) r.prob := by
    have h := ingestClean_fresh isK norm []
      (fun r _ e he => absurd he (List.not_mem_nil e)) hnodup
    simpa using h
  have hENT : ((ingestClean isK norm []).map fun e => (e, combinedRawOf e)) =
      norm.map fun r =>
        (setVenueProb isK (CombEntry.mk r.lower r.upper none none) r.prob,
          some r.prob) := by
    rw [hing, List.map_map]
    refine List.map_congr_left fun r _ => ?_
    show (_, combinedRawOf (setVenueProb isK (CombEntry.mk r.lower r.upper none none)
      r.prob)) = _
    rw [combinedRawOf_setVenueProb]
  have hTOT : ((norm.map fun r =>
      (setVenueProb isK (CombEntry.mk r.lower r.upper none none) r.prob,
        some r.prob)).map fun p => p.2.getD 0).sum = 1 := by
    rw [List.map_map]
    have heq : norm.map ((fun p : CombEntry × Option ℚ => p.2.getD 0) ∘ fun r =>
        (setVenueProb isK (CombEntry.mk r.lower r.upper none none) r.prob,
          some r.prob)) = norm.map (·.prob) :=
      List.map_congr_left fun r _ => rfl
    rw [heq, hsum1]
  simp only [finishCombine, hENT, hTOT]
  refine ((List.mergeSort_perm _ combinedSortLE).map _).trans ?_
  rw [List.map_map, List.map_map]
  have hfin : norm.map (((fun e : CombinedEntry => (e.lower, e.upper, some e.combined)) ∘
      fun p : CombEntry × Option ℚ =>
        ({ lower := p.1.lower, upper := p.1.upper, kalshi := p.1.kalshi,
            polymarket := p.1.polymarket, combinedRaw := p.2,
            combined := if 0 < (1 : ℚ) ∧ p.2.isSome = true then p.2.getD 0 / 1
              else 0 } : CombinedEntry)) ∘
      fun r : CleanRange =>
        (setVenueProb isK (CombEntry.mk r.lower r.upper none none) r.prob,
          some r.prob)) =
      norm.map fun r =>
        ((r.lower, r.upper, some r.prob) : Option ℚ × Option ℚ × Option ℚ) := by
    refine List.map_congr_left fun r _ => ?_
    cases isK <;> simp [setVenueProb, div_one, zero_lt_one]
  rw [hfin]

/-- C6: for a snapshot without a precomputed posterior block and with exactly
one venue reporting ranges, the fallback posterior's bin means are exactly the
venue's own normalized probabilities (as a multiset of (lower, upper, mean)
triples) and every per-bin p10 and p90 is null. -/
theorem single_venue_fallback (snap : Papers.Snapshot) (bins : List Bin)
    (hpost : snap.posterior = none) :
    (∀ b ∈ Papers.getPosteriorBins snap bins, b.p10 = none ∧ b.p90 = none) ∧
    (snap.sources.polymarket = [] →
      ((Papers.normalizeDistribution snap.sources.kalshi).map fun r =>
        ((r.lower, r.upper) : Option ℚ × Option ℚ)).Nodup →
      ((Papers.normalizeDistribution snap.sources.kalshi).map (·.prob)).sum = 1 →
      ((Papers.getPosteriorBins snap bins).map fun b => (b.lower, b.upper, b.mean)).Perm
        ((Papers.normalizeDistribution snap.sources.kalshi).map fun r =>
          (r.lower, r.upper, some r.prob))) ∧
    (snap.sources.kalshi = [] →
      ((Papers.normalizeDistribution snap.sources.polymarket).map fun r =>
        ((r.lower, r.upper) : Option ℚ × Option ℚ)).Nodup →
      ((Papers.normalizeDistribution snap.sources.polymarket).map (·.prob)).sum = 1 →
      ((Papers.getPosteriorBins snap bins).map fun b => (b.lower, b.upper, b.mean)).Perm
        ((Papers.normalizeDistribution snap.sources.polymarket).map fun r =>
          (r.lower, r.upper, some r.prob))) := by
  have hgp : Papers.getPosterior snap = none := by
    unfold Papers.getPosterior
    rw [hpost]
  have hgpb : Papers.getPosteriorBins snap bins =
      (Papers.combineDistributions snap.sources).map fun entry =>
        Papers.PBin.mk entry.lower entry.upper
          (some (Papers.midpointForBin entry.lower entry.upper
            (Papers.estimateBinWidth bins)))
          (some entry.combined) none none := by
    unfold Papers.getPosteriorBins
    rw [hgp]
  have hnil : Papers.normalizeDistribution ([] : List RawRange) = [] := by
    simp [Papers.normalizeDistribution, Papers.cleanRanges]
  refine ⟨?_, ?_, ?_⟩
  · intro b hb
    rw [hgpb] at hb
    rcases List.mem_map.mp hb with ⟨entry, _, rfl⟩
    exact ⟨rfl, rfl⟩
  · intro hpm hnodup hsum1
    have hcd : Papers.combineDistributions snap.sources =
        finishCombine (ingestClean true
          (Papers.normalizeDistribution snap.sources.kalshi) []) := by
      unfold Papers.combineDistributions
      rw [hpm, hnil]
      rfl
    rw [hgpb, hcd, List.map_map]
    exact finishCombine_single true _ hnodup hsum1
  · intro hks hnodup hsum1
    have hcd : Papers.combineDistributions snap.sources =
        finishCombine (ingestClean false
          (Papers.normalizeDistribution snap.sources.polymarket) []) := by
      unfold Papers.combineDistributions
      rw [hks, hnil]
      rfl
    rw [hgpb, hcd, List.map_map]
    exact finishCombine_single false _ hnodup hsum1

/-- C6 witness: the spec's scenario C — a single venue quoting 0.4 / 0.6 over
two bins, no second venue, no stored posterior. -/
theorem single_venue_fallback_witness :
    (∀ b ∈ Papers.getPosteriorBins
      (Papers.Snapshot.mk (some 0)
        (Papers.Sources.mk
          [RawRange.mk (some 0) (some 1) (some (2/5)),
           RawRange.mk (some 1) (some 2) (some (3/5))] [])
        (Papers.SourceMeta.mk none none) none) [],
      b.p10 = none ∧ b.p90 = none) ∧
    ((Papers.getPosteriorBins
      (Papers.Snapshot.mk (some 0)
        (Papers.Sources.mk
          [RawRange.mk (some 0) (some 1) (some (2/5)),
           RawRange.mk (some 1) (some 2) (some (3/5))] [])
        (Papers.SourceMeta.mk none none) none) []).map
        fun b => (b.lower, b.upper, b.mean)).Perm
      ((Papers.normalizeDistribution
        [RawRange.mk (some 0) (some 1) (some (2/5)),
         RawRange.mk (some 1) (some 2) (some (3/5))]).map fun r =>
        (r.lower, r.upper, some r.prob)) := by
  have hnorm : Papers.normalizeDistribution
      [RawRange.mk (some 0) (some 1) (some (2/5)),
       RawRange.mk (some 1) (some 2) (some (3/5))] =
      [CleanRange.mk (some 0) (some 1) (2/5), CleanRange.mk (some 1) (some 2) (3/5)] := by
    norm_num [Papers.normalizeDistribution, Papers.cleanRanges, Papers.normalizeProb,
      List.filterMap_cons]
  have h := single_venue_fallback
    (Papers.Snapshot.mk (some 0)
      (Papers.Sources.mk
        [RawRange.mk (some 0) (some 1) (some (2/5)),
         RawRange.mk (some 1) (some 2) (some (3/5))] [])
      (Papers.SourceMeta.mk none none) none) [] rfl
  refine ⟨h.1, h.2.1 rfl ?_ ?_⟩
  · rw [hnorm]
    simp only [List.map_cons, List.map_nil, List.nodup_cons, List.mem_singleton,
      List.not_mem_nil, not_false_iff, List.nodup_nil, and_true]
    intro hcontra
    rw [Prod.mk.injEq] at hcontra
    rcases hcontra with ⟨h1, _⟩
    rw [Option.some_inj] at h1
    norm_num at h1
  · rw [hnorm]
    norm_num

end PLSite
